import Mathlib

/-!
Shallow embedding of the Pext launcher module (`src/__init__.py`) and proofs
about its discovery, deduplication and launch behaviour.

The Python module scans platform-specific sources for runnable programs,
deduplicates them by display name into three parallel in-memory maps
(`executables`, `info_panels`, `context_menus`), publishes them to a host
via an outbound queue and spawns a process when a selection is made.

Filesystem and OS interactions are modelled by an explicit `FS` record;
Python dicts (which preserve insertion order) are modelled as association
lists; exceptions that the code lets escape are modelled with `Except`.
-/

namespace PextLauncher

/-- The result of Python's `platform.system()`: one fixed value per run. -/
inductive Platform where
  | Darwin
  | Linux
  | Windows
  | Other
  deriving DecidableEq, Repr

/-- One entry of a directory listing, together with the two `os` predicates
the code queries about it: `os.path.isfile` and `os.access(..., X_OK)`. -/
structure FileEntry where
  name : String
  isFile : Bool
  isExec : Bool
  deriving DecidableEq, Repr

/-- A desktop-entry file as seen through `configparser.RawConfigParser`
after a successful read: sections mapping keys to values (keys as the
parser returns them, i.e. already case-normalized). -/
def IniFile : Type := List (String × List (String × String))

/-- The filesystem / environment boundary of one discovery run. -/
structure FS where
  /-- `os.environ['PATH']` already split on `os.pathsep`. -/
  pathEnv : List String
  /-- `os.path.expanduser`. -/
  expand : String → String
  /-- `os.listdir` on a directory scanned by `get_executables`;
  `none` models an `OSError`. -/
  listing : String → Option (List FileEntry)
  /-- `os.listdir('/Applications')` (names only); `none` models an `OSError`. -/
  applications : Option (List String)
  /-- `os.environ['XDG_DATA_DIRS']` split on `os.pathsep`;
  `none` models the `KeyError` taken when the variable is unset. -/
  xdgDataDirs : Option (List String)
  /-- Listing an `applications` directory of desktop entries, each file
  already in parsed form; `none` models an `OSError`. -/
  desktopListing : String → Option (List IniFile)
  /-- `[p.InstallLocation for p in wmi.WMI().Win32_Product()]`. -/
  wmiPaths : List String

/-- `os.path.join` for the POSIX paths the claims exercise. -/
def osJoin (a b : String) : String := a ++ "/" ++ b

/-- The in-memory maps of the module instance. -/
structure ModState where
  executables : List String
  info_panels : List (String × String)
  context_menus : List (String × List String)
  deriving DecidableEq, Repr

/-- The fresh state `init` creates (lines 38-40). -/
def initialState : ModState := ⟨[], [], []⟩

/-- Messages placed on the outbound queue `self.q`. -/
inductive Msg where
  | replace_entry_list (l : List String)
  | replace_command_list (l : List String)
  | replace_command_info_dict (d : List (String × String))
  | replace_command_context_dict (d : List (String × List String))
  | critical_error (s : String)
  | close
  deriving DecidableEq, Repr

/-- Python-dict lookup `m[k]` on an association list, `none` for `KeyError`. -/
def alistGet {α : Type} (m : List (String × α)) (k : String) : Option α :=
  match m with
  | [] => none
  | (k', v) :: rest => if k' = k then some v else alistGet rest k

/-- Python-dict assignment `m[k] = v`: replace in place, else append
(dicts preserve insertion order). -/
def alistSet {α : Type} (m : List (String × α)) (k : String) (v : α) :
    List (String × α) :=
  match m with
  | [] => [(k, v)]
  | (k', v') :: rest =>
      if k' = k then (k, v) :: rest else (k', v') :: alistSet rest k v

/-! String helpers embedding the Python library calls the module makes. -/

/-- `re.sub(r'(?<!%)%[<cls>]', repl, s)`: replace every `%c` with `c` in
`cls` whose `%` is not preceded by `%` in the original string. The boolean
tracks whether the previous character of the original string was `%`. -/
def pySubClass (cls : List Char) (repl : List Char) :
    List Char → Bool → List Char
  | [], _ => []
  | '%' :: rest, prevPct =>
      match rest with
      | [] => ['%']
      | c :: rest2 =>
          if !prevPct && cls.contains c then repl ++ pySubClass cls repl rest2 false
          else '%' :: pySubClass cls repl (c :: rest2) true
  | c :: rest, _ => c :: pySubClass cls repl rest false

/-- `re.subn(r'(?<!%)%[<cls>]', repl, s, count=1)`: replace only the first
match and report how many replacements were made (0 or 1). -/
def pySubnClassOnce (cls : List Char) (repl : List Char) :
    List Char → Bool → List Char × Nat
  | [], _ => ([], 0)
  | '%' :: rest, prevPct =>
      match rest with
      | [] => (['%'], 0)
      | c :: rest2 =>
          if !prevPct && cls.contains c then (repl ++ rest2, 1)
          else
            let r := pySubnClassOnce cls repl (c :: rest2) true
            ('%' :: r.1, r.2)
  | c :: rest, _ =>
      let r := pySubnClassOnce cls repl rest false
      (c :: r.1, r.2)

/-- String-level wrapper of `pySubClass`. -/
def pySub (cls : List Char) (repl : String) (s : String) : String :=
  String.mk (pySubClass cls repl.data s.data false)

/-- String-level wrapper of `pySubnClassOnce`. -/
def pySubnOnce (cls : List Char) (repl : String) (s : String) : String × Nat :=
  let r := pySubnClassOnce cls repl.data s.data false
  (String.mk r.1, r.2)

/-- Python `str.endswith(suffix)`: a plain suffix test. -/
def pyEndswith (suffix s : String) : Bool := suffix.data.isSuffixOf s.data

/-- One character of `html.escape` (with its default `quote=True`). -/
def htmlEscapeChar (c : Char) : List Char :=
  if c = '&' then "&amp;".data
  else if c = '<' then "&lt;".data
  else if c = '>' then "&gt;".data
  else if c = '"' then "&quot;".data
  else if c = '\x27' then "&#x27;".data
  else [c]

/-- `html.escape(s)`. -/
def htmlEscape (s : String) : String :=
  String.mk (s.data.foldr (fun c acc => htmlEscapeChar c ++ acc) [])

/-- Python `str.rstrip(chars)`: strip from the right every character that
occurs in `chars` (a character set, not a suffix). -/
def pyRstrip (chars : List Char) (s : String) : String :=
  String.mk (s.data.reverse.dropWhile (fun c => chars.contains c)).reverse

/-- Python `str.lower()` for the ASCII strings settings values are. -/
def pyLower (s : String) : String := String.mk (s.data.map Char.toLower)

/-- `distutils.util.strtobool`; `none` models the `ValueError` raised on an
unrecognized value. -/
def strtobool (s : String) : Option Bool :=
  let v := pyLower s
  if v = "y" ∨ v = "yes" ∨ v = "t" ∨ v = "true" ∨ v = "on" ∨ v = "1" then
    some true
  else if v = "n" ∨ v = "no" ∨ v = "f" ∨ v = "false" ∨ v = "off" ∨ v = "0" then
    some false
  else none

/-- Python `<` on lists of integers (lexicographic, shorter prefix first). -/
def pyListLt : List Int → List Int → Bool
  | [], [] => false
  | [], _ :: _ => true
  | _ :: _, [] => false
  | a :: as, b :: bs => if a < b then true else if b < a then false else pyListLt as bs

/-- A character `shlex.quote` considers safe: `\w` under `re.ASCII` plus
at-sign, percent, plus, equals, colon, comma, dot, slash and dash. -/
def shlexSafeChar (c : Char) : Bool :=
  c.isAlphanum || "_@%+=:,./-".data.contains c

/-- `shlex.quote(s)`. -/
def shlexQuote (s : String) : String :=
  if s = "" then "\x27\x27"
  else if s.data.all shlexSafeChar then s
  else
    "\x27" ++
      String.mk (s.data.foldr
        (fun c acc => if c = '\x27' then "\x27\"\x27\"\x27".data ++ acc else c :: acc) []) ++
      "\x27"

/-- `shlex.split(s)` in POSIX mode: whitespace splits tokens, single quotes
are literal, double quotes allow `\\` to escape `\\` and `\"`, a backslash
outside quotes escapes the next character. The second argument is the
active quote character, the third the token accumulated so far (reversed;
`none` when no token has started). Reaching the end of the input inside a
quote raises `ValueError: No closing quotation` in Python, and a trailing
escape character raises `ValueError: No escaped character`; both are
modelled as `none`. -/
def shlexSplitAux : List Char → Option Char → Option (List Char) → Option (List String)
  | [], some _, _ => none
  | [], none, none => some []
  | [], none, some t => some [String.mk t.reverse]
  | c :: rest, some q, cur =>
      if c = q then shlexSplitAux rest none (some (cur.getD []))
      else if q = '"' ∧ c = '\\' then
        match rest with
        | [] => none
        | d :: rest2 =>
            if d = '"' ∨ d = '\\' then
              shlexSplitAux rest2 (some q) (some (d :: cur.getD []))
            else
              shlexSplitAux rest2 (some q) (some (d :: '\\' :: cur.getD []))
      else shlexSplitAux rest (some q) (some (c :: cur.getD []))
  | c :: rest, none, cur =>
      if c = ' ' ∨ c = '\t' ∨ c = '\r' ∨ c = '\n' then
        match cur with
        | none => shlexSplitAux rest none none
        | some t =>
            match shlexSplitAux rest none none with
            | none => none
            | some toks => some (String.mk t.reverse :: toks)
      else if c = '\x27' ∨ c = '"' then
        shlexSplitAux rest (some c) (some (cur.getD []))
      else if c = '\\' then
        match rest with
        | [] => none
        | d :: rest2 => shlexSplitAux rest2 none (some (d :: cur.getD []))
      else shlexSplitAux rest none (some (c :: cur.getD []))

/-- `shlex.split(s)`; `none` models the `ValueError` raised on an
unterminated quote or a trailing escape. -/
def shlexSplit (s : String) : Option (List String) := shlexSplitAux s.data none none

/-- Python `<` on the character lists of two strings: lexicographic by
code point, a strict prefix comparing smaller. -/
def pyStrLt : List Char → List Char → Bool
  | [], [] => false
  | [], _ :: _ => true
  | _ :: _, [] => false
  | a :: as, b :: bs => if a < b then true else if b < a then false else pyStrLt as bs

/-- Python `<=` on strings (total order, so `a <= b` is `not (b < a)`). -/
def pyStrLe (a b : String) : Bool := !pyStrLt b.data a.data

/-- Insert into an ascending list of strings. -/
def insertSorted (x : String) : List String → List String
  | [] => [x]
  | y :: ys => if pyStrLe x y then x :: y :: ys else y :: insertSorted x ys

/-- Python `list.sort()` on strings: ascending lexicographic order,
modelled as insertion sort (same sorted result). -/
def pySort (l : List String) : List String := l.foldr insertSorted []

/-! The module's operations (`src/__init__.py`). -/

/-- Lines 81-87: record one discovered executable occurrence. A new name is
appended to `executables` and seeds its info panel and context menu; a name
already present has the full path appended to its panel and menu (the key
is present whenever the name is, so the `getD` defaults are never taken in
a reachable state). -/
def addExecutable (st : ModState) (executable fullname : String) : ModState :=
  if executable ∈ st.executables then
    { st with
      info_panels := alistSet st.info_panels executable
        ((alistGet st.info_panels executable).getD "" ++ "<br/>" ++ htmlEscape fullname),
      context_menus := alistSet st.context_menus executable
        ((alistGet st.context_menus executable).getD [] ++ [fullname]) }
  else
    { executables := st.executables ++ [executable],
      info_panels := alistSet st.info_panels executable
        ("<b>" ++ htmlEscape fullname ++ "</b>"),
      context_menus := alistSet st.context_menus executable [fullname] }

/-- Lines 71-87: the body of the inner loop of `get_executables` for one
directory entry: keep it when it is a file and passes the per-platform
executability test (`.exe` suffix on Windows, `X_OK` elsewhere). -/
def processEntry (plat : Platform) (p : String) (st : ModState) (e : FileEntry) : ModState :=
  if e.isFile then
    if plat = .Windows then
      if pyEndswith ".exe" e.name then addExecutable st e.name (osJoin p e.name)
      else st
    else
      if e.isExec then addExecutable st e.name (osJoin p e.name)
      else st
  else st

/-- Lines 68-89: scan one `PATH`-style directory. A failing `os.listdir`
(`none`) is swallowed by the `except OSError: pass`. -/
def processDir (plat : Platform) (fs : FS) (st : ModState) (path : String) : ModState :=
  let p := fs.expand path
  match fs.listing p with
  | none => st
  | some entries => entries.foldl (processEntry plat p) st

/-- Lines 63-89: `get_executables(paths)`; `paths=None` scans `PATH`. -/
def get_executables (plat : Platform) (fs : FS) (st : ModState)
    (paths : Option (List String)) : ModState :=
  (paths.getD fs.pathEnv).foldl (processDir plat fs) st

/-- Lines 50-61: `parse_desktop_entry`. A missing section or key raises
`KeyError`, modelled as `none`; on success the deprecated field codes
`%d %D %n %N %i %c %k %v %m` (not preceded by `%`) are stripped from the
command. -/
def parse_desktop_entry (f : IniFile) : Option (String × String) :=
  match alistGet f "Desktop Entry" with
  | none => none
  | some entry =>
      match alistGet entry "Name", alistGet entry "Exec" with
      | some app, some command =>
          some (app, pySub ['d', 'D', 'n', 'N', 'i', 'c', 'k', 'v', 'm'] "" command)
      | _, _ => none

/-- Lines 122-126: derive the display text from the command, trying the
`%f`/`%F` pattern first and the `%u`/`%U` pattern second with `count=1`,
breaking out of the loop after the first pattern that substituted. -/
def makeCommandInfo (command : String) : String :=
  let r1 := pySubnOnce ['f', 'F'] "<file name>" command
  if r1.2 ≠ 0 then r1.1
  else (pySubnOnce ['u', 'U'] "<URL>" command).1

/-- Lines 121-134: record one parsed desktop entry. A new name is appended;
a duplicate command for a known name is skipped; a new command for a known
name is appended to its panel and menu. -/
def addDesktopEntry (st : ModState) (app command : String) : ModState :=
  let command_info := makeCommandInfo command
  if app ∈ st.executables then
    if command ∈ (alistGet st.context_menus app).getD [] then st
    else
      { st with
        info_panels := alistSet st.info_panels app
          ((alistGet st.info_panels app).getD "" ++ "<br/>" ++ htmlEscape command_info),
        context_menus := alistSet st.context_menus app
          ((alistGet st.context_menus app).getD [] ++ [command]) }
  else
    { executables := st.executables ++ [app],
      info_panels := alistSet st.info_panels app
        ("<b>" ++ htmlEscape command_info ++ "</b>"),
      context_menus := alistSet st.context_menus app [command] }

/-- Lines 113-134: process one desktop file; a `KeyError` from
`parse_desktop_entry` skips the file (`continue`). -/
def addDesktopFile (st : ModState) (f : IniFile) : ModState :=
  match parse_desktop_entry f with
  | none => st
  | some (app, command) => addDesktopEntry st app command

/-- Lines 110-136: scan one XDG data directory's `applications`
subdirectory; a failing `os.listdir` is swallowed by `except OSError`. -/
def processDesktopDir (fs : FS) (st : ModState) (dir : String) : ModState :=
  let d := osJoin (fs.expand dir) "applications"
  match fs.desktopListing d with
  | none => st
  | some files => files.foldl addDesktopFile st

/-- Lines 92-144: the platform branch of `_get_entries` (before the sort).
On Darwin without `use_path`, `listdir('/Applications')` is not wrapped in
a `try`, so its `OSError` escapes (`.error`); names ending in `.app` are
appended after `rstrip('.app')` (a character-set strip) with no membership
check and no info panel or context menu. On Linux without `use_path`, a
missing `XDG_DATA_DIRS` falls back to `['/usr/share', '/usr/local/share']`.
On Windows without `use_path`, the WMI install locations are scanned with
`get_executables`. -/
def discover (plat : Platform) (fs : FS) (use_path : Bool) (st : ModState) :
    Except Unit ModState :=
  match plat with
  | .Darwin =>
      if use_path then .ok (get_executables plat fs st none)
      else
        match fs.applications with
        | none => .error ()
        | some names =>
            let exes := names.foldl
              (fun acc e =>
                if pyEndswith ".app" e then acc ++ [pyRstrip ['.', 'a', 'p'] e]
                else acc)
              st.executables
            .ok { st with executables := exes }
  | .Linux =>
      if use_path then .ok (get_executables plat fs st none)
      else
        let dirs := fs.xdgDataDirs.getD ["/usr/share", "/usr/local/share"]
        .ok (dirs.foldl (processDesktopDir fs) st)
  | .Windows =>
      if use_path then .ok (get_executables plat fs st none)
      else .ok (get_executables plat fs st (some fs.wmiPaths))
  | .Other => .ok st

/-- Lines 149-158: `_set_entries` publishes the in-memory maps. On Darwin
without `use_path` the names go to the entry list, otherwise to the
command list. -/
def set_entries (plat : Platform) (use_path : Bool) (st : ModState) : List Msg :=
  (if !use_path && plat = .Darwin then
    [Msg.replace_command_list [], Msg.replace_entry_list st.executables]
  else
    [Msg.replace_command_list st.executables, Msg.replace_entry_list []]) ++
  [Msg.replace_command_info_dict st.info_panels,
   Msg.replace_command_context_dict st.context_menus]

/-- Lines 91-147 + 146: `_get_entries` = discovery, then
`self.executables.sort()`, then `_set_entries`. -/
def moduleGetEntries (plat : Platform) (fs : FS) (use_path : Bool) (st : ModState) :
    Except Unit (ModState × List Msg) :=
  match discover plat fs use_path st with
  | .error e => .error e
  | .ok st1 =>
      let st2 := { st1 with executables := pySort st1.executables }
      .ok (st2, set_entries plat use_path st2)

/-- The settings mapping as `init` reads it: the optional `use_path` value
(a string, run through `strtobool`) and `settings['_api_version']`. -/
structure Settings where
  use_path : Option String
  api_version : List Int

/-- Line 36: `self.use_path = False if ('use_path' not in settings) else
bool(strtobool(settings['use_path']))`; `none` models the `ValueError`
`strtobool` raises on an unrecognized value. -/
def moduleUsePath (s : Settings) : Option Bool :=
  match s.use_path with
  | none => some false
  | some v => strtobool v

/-- Lines 35-48: `init`. Returns the messages put on the queue before any
escaping exception, and the final state when no exception escapes. The
version check only enqueues a critical error; discovery runs regardless. -/
def moduleInit (plat : Platform) (fs : FS) (s : Settings) :
    List Msg × Except Unit ModState :=
  match moduleUsePath s with
  | none => ([], .error ())
  | some up =>
      let pre :=
        if pyListLt s.api_version [0, 8, 0] then
          [Msg.critical_error "API version is not supported"]
        else []
      match moduleGetEntries plat fs up initialState with
      | .error e => (pre, .error e)
      | .ok (st, msgs) => (pre ++ msgs, .ok st)

/-- One element of the `selection` list passed to `selection_made`. -/
structure SelectionItem where
  value : String
  context_option : Option String
  args : String

/-- What `Popen` receives: an argv sequence, or a bare command string
(which POSIX `Popen` runs as the program name itself, unsplit). -/
inductive SpawnedCmd where
  | argv (l : List String)
  | prog (s : String)
  deriving DecidableEq, Repr

/-- Line 181: `sub(r'(?<!%)%[fFuU]', args, command)`. -/
def launchSub (args command : String) : String :=
  pySub ['f', 'F', 'u', 'U'] args command

/-- Lines 163-189: `selection_made`. The empty selection merely re-sends
the current in-memory state (`_set_entries`); the ambient filesystem `fs`
is ignored. A single selection resolves the command (a truthy
`context_option` wins, else `self.context_menus[value][0]`, whose
`KeyError`/`IndexError` escapes), builds the platform-specific launch
command and emits `Action.close`. A `ValueError` from `shlex.split`
(lines 173, 182, 186) escapes (`.error`) before anything is spawned or
queued. On Darwin without `use_path` and truthy args, line 173 either
raises that `ValueError` from `shlex.split(args)` or adds a tuple to a
list, a `TypeError`; both escape (`.error`). Longer selections fall
through with no effect. -/
def selection_made (plat : Platform) (_fs : FS) (use_path : Bool) (st : ModState)
    (selection : List SelectionItem) :
    Except Unit (Option SpawnedCmd × List Msg) :=
  match selection with
  | [] => .ok (none, set_entries plat use_path st)
  | [sel] =>
      let fallback : Except Unit String :=
        match alistGet st.context_menus sel.value with
        | some (x :: _) => .ok x
        | some [] => .error ()
        | none => .error ()
      let cmd0 : Except Unit String :=
        match sel.context_option with
        | some c => if c ≠ "" then .ok c else fallback
        | none => fallback
      match cmd0 with
      | .error e => .error e
      | .ok command =>
          if !use_path && plat = .Darwin then
            if sel.args ≠ "" then .error ()
            else .ok (some (.argv ["open", "-a", shlexQuote command]), [Msg.close])
          else if !use_path && plat = .Linux then
            let args := if sel.args ≠ "" then shlexQuote sel.args else sel.args
            match shlexSplit (launchSub args command) with
            | none => .error ()
            | some toks => .ok (some (.argv toks), [Msg.close])
          else
            if sel.args ≠ "" then
              match shlexSplit sel.args with
              | none => .error ()
              | some toks => .ok (some (.argv (command :: toks)), [Msg.close])
            else .ok (some (.prog command), [Msg.close])
  | _ :: _ :: _ => .ok (none, [])

/-! Specification-side views of a discovery run, used to state the claims. -/

/-- Whether `get_executables` keeps a directory entry (lines 73-79). -/
def qualifies (plat : Platform) (e : FileEntry) : Bool :=
  e.isFile && (if plat = .Windows then pyEndswith ".exe" e.name else e.isExec)

/-- The qualifying (basename, full path) occurrences of one scanned
directory, in listing order. -/
def dirOccurrences (plat : Platform) (fs : FS) (path : String) :
    List (String × String) :=
  match fs.listing (fs.expand path) with
  | none => []
  | some entries =>
      (entries.filter (qualifies plat)).map
        (fun e => (e.name, osJoin (fs.expand path) e.name))

/-- All qualifying occurrences of a `get_executables` run, in scan order. -/
def occurrences (plat : Platform) (fs : FS) (paths : List String) :
    List (String × String) :=
  (paths.map (dirOccurrences plat fs)).flatten

/-- The parsed (name, command) pairs of one XDG data directory's
`applications` subdirectory, in listing order. -/
def dirDesktopPairs (fs : FS) (dir : String) : List (String × String) :=
  match fs.desktopListing (osJoin (fs.expand dir) "applications") with
  | none => []
  | some files => files.filterMap parse_desktop_entry

/-- The parsed (name, command) pairs of a Linux desktop-entry scan, in
scan order. -/
def desktopPairs (fs : FS) (dirs : List String) : List (String × String) :=
  (dirs.map (dirDesktopPairs fs)).flatten

/-- First-occurrence deduplication; `seen` holds the names already kept. -/
def dedupFirstAux : List String → List String → List String
  | [], _ => []
  | x :: xs, seen =>
      if x ∈ seen then dedupFirstAux xs seen
      else x :: dedupFirstAux xs (x :: seen)

/-- Deduplicate a list keeping the first occurrence of each element. -/
def dedupFirst (l : List String) : List String := dedupFirstAux l []

/-- The relation between the in-memory maps and the occurrence list `done`
processed so far by `get_executables`: names are unique, a name is present
exactly when some processed occurrence carries it, and its context menu
holds the full paths of its occurrences in first-discovery order. -/
def execInvariant (st : ModState) (done : List (String × String)) : Prop :=
  st.executables.Nodup ∧
  (∀ n, n ∈ st.executables ↔ n ∈ done.map Prod.fst) ∧
  (∀ n, alistGet st.context_menus n =
      if n ∈ done.map Prod.fst then
        some ((done.filter (fun o => o.1 == n)).map Prod.snd)
      else none)

/-- The relation between the in-memory maps and the (name, command) pairs
`done` processed so far by the Linux desktop scan: names are unique and a
present name's context menu holds the distinct commands seen for it, in
first-discovery order. -/
def desktopInvariant (st : ModState) (done : List (String × String)) : Prop :=
  st.executables.Nodup ∧
  (∀ n, n ∈ st.executables ↔ n ∈ done.map Prod.fst) ∧
  (∀ n, alistGet st.context_menus n =
      if n ∈ done.map Prod.fst then
        some (dedupFirst ((done.filter (fun o => o.1 == n)).map Prod.snd))
      else none)

/-- Ascending order check on strings (Python's `list.sort()` order). -/
def ascStrings : List String → Bool
  | [] => true
  | [_] => true
  | x :: y :: rest => pyStrLe x y && ascStrings (y :: rest)

/-- Whether a message's entry/command list payload is ascending (messages
with no such payload pass vacuously). -/
def msgSorted : Msg → Bool
  | .replace_entry_list l => ascStrings l
  | .replace_command_list l => ascStrings l
  | _ => true

/-- The messages emitted by `selection_made`, empty when it raises. -/
def selectionMsgs (plat : Platform) (fs : FS) (use_path : Bool) (st : ModState)
    (sel : List SelectionItem) : List Msg :=
  match selection_made plat fs use_path st sel with
  | .ok (_, msgs) => msgs
  | .error _ => []

/-- All messages a module run sends: those of `init`, then those of each
`selection_made` call on the state `init` built (`selection_made` never
modifies the maps, so the state is the one from `init` throughout). -/
def moduleRunMsgs (plat : Platform) (fs : FS) (s : Settings)
    (sels : List (List SelectionItem)) : List Msg :=
  match moduleInit plat fs s with
  | (msgs, .error _) => msgs
  | (msgs, .ok st) =>
      msgs ++
        (sels.map (selectionMsgs plat fs ((moduleUsePath s).getD false) st)).flatten

/-! Basic lemmas about the association-list model of Python dicts. -/

theorem alistGet_alistSet_self {α : Type} (m : List (String × α)) (k : String) (v : α) :
    alistGet (alistSet m k v) k = some v := by
  induction m with
  | nil => simp [alistGet, alistSet]
  | cons hd tl ih =>
      obtain ⟨k', v'⟩ := hd
      by_cases h : k' = k <;> simp [alistGet, alistSet, h, ih]

theorem alistGet_alistSet_ne {α : Type} (m : List (String × α)) (k n : String) (v : α)
    (h : n ≠ k) : alistGet (alistSet m k v) n = alistGet m n := by
  have h' : k ≠ n := Ne.symm h
  induction m with
  | nil => simp [alistGet, alistSet, h']
  | cons hd tl ih =>
      obtain ⟨k', v'⟩ := hd
      by_cases hk : k' = k
      · subst hk
        simp [alistGet, alistSet, h']
      · by_cases hn : k' = n <;> simp [alistGet, alistSet, hk, hn, ih, h]

/-! The fold over a scanned directory equals the fold over its qualifying
occurrences. -/

theorem processEntry_eq (plat : Platform) (p : String) (st : ModState) (e : FileEntry) :
    processEntry plat p st e =
      if qualifies plat e then addExecutable st e.name (osJoin p e.name) else st := by
  by_cases hf : e.isFile = true
  · by_cases hw : plat = .Windows
    · subst hw
      by_cases he : pyEndswith ".exe" e.name = true <;>
        simp [processEntry, qualifies, hf, he]
    · by_cases hx : e.isExec = true <;> simp [processEntry, qualifies, hf, hw, hx]
  · simp [processEntry, qualifies, hf]

theorem foldl_processEntry_eq (plat : Platform) (p : String) (entries : List FileEntry) :
    ∀ st : ModState,
      entries.foldl (processEntry plat p) st =
        ((entries.filter (qualifies plat)).map
            (fun e => (e.name, osJoin p e.name))).foldl
          (fun st o => addExecutable st o.1 o.2) st := by
  induction entries with
  | nil => intro st; rfl
  | cons e es ih =>
      intro st
      by_cases h : qualifies plat e
      · simp [List.filter_cons, h, List.foldl_cons, processEntry_eq, ih]
      · simp [List.filter_cons, h, List.foldl_cons, processEntry_eq, ih]

theorem processDir_eq (plat : Platform) (fs : FS) (st : ModState) (path : String) :
    processDir plat fs st path =
      (dirOccurrences plat fs path).foldl (fun st o => addExecutable st o.1 o.2) st := by
  have hlet : processDir plat fs st path =
      match fs.listing (fs.expand path) with
      | none => st
      | some entries => entries.foldl (processEntry plat (fs.expand path)) st := rfl
  rw [hlet]
  unfold dirOccurrences
  cases fs.listing (fs.expand path) with
  | none => rfl
  | some entries => exact foldl_processEntry_eq plat (fs.expand path) entries st

theorem get_executables_eq (plat : Platform) (fs : FS) (paths : List String) :
    ∀ st : ModState,
      get_executables plat fs st (some paths) =
        (occurrences plat fs paths).foldl (fun st o => addExecutable st o.1 o.2) st := by
  induction paths with
  | nil => intro st; rfl
  | cons p ps ih =>
      intro st
      have h1 : get_executables plat fs st (some (p :: ps)) =
          ps.foldl (processDir plat fs) (processDir plat fs st p) := rfl
      have h2 : ps.foldl (processDir plat fs) (processDir plat fs st p) =
          (occurrences plat fs ps).foldl (fun st o => addExecutable st o.1 o.2)
            (processDir plat fs st p) := ih (processDir plat fs st p)
      have h3 : occurrences plat fs (p :: ps) =
          dirOccurrences plat fs p ++ occurrences plat fs ps := by
        simp [occurrences]
      rw [h1, h2, processDir_eq, h3, List.foldl_append]

/-! Lemmas about occurrence filtering. -/

theorem filter_fst_append_self (done : List (String × String)) (name full : String) :
    (done ++ [(name, full)]).filter (fun o => o.1 == name) =
      done.filter (fun o => o.1 == name) ++ [(name, full)] := by
  simp [List.filter_append]

theorem filter_fst_append_ne (done : List (String × String)) (name full n : String)
    (h : n ≠ name) :
    (done ++ [(name, full)]).filter (fun o => o.1 == n) =
      done.filter (fun o => o.1 == n) := by
  simp [List.filter_append, beq_iff_eq, Ne.symm h]

theorem filter_fst_eq_nil_of_notMem (done : List (String × String)) (name : String)
    (h : name ∉ done.map Prod.fst) :
    done.filter (fun o => o.1 == name) = [] := by
  rw [List.filter_eq_nil_iff]
  intro o ho
  simp only [beq_iff_eq]
  intro he
  exact h (List.mem_map.mpr ⟨o, ho, he⟩)

theorem count_fst_eq_filter_length (done : List (String × String)) (n : String) :
    (done.map Prod.fst).count n = (done.filter (fun o => o.1 == n)).length := by
  induction done with
  | nil => rfl
  | cons o os ih =>
      by_cases h : o.1 = n <;>
        simp [List.count_cons, List.filter_cons, h, ih, beq_iff_eq]

/-! The `get_executables` invariant is preserved by each occurrence. -/

theorem execInvariant_addExecutable (st : ModState) (done : List (String × String))
    (name full : String) (h : execInvariant st done) :
    execInvariant (addExecutable st name full) (done ++ [(name, full)]) := by
  obtain ⟨h1, h2, h3⟩ := h
  by_cases hmem : name ∈ st.executables
  · have hnames : name ∈ done.map Prod.fst := (h2 name).1 hmem
    have hmenu : alistGet st.context_menus name =
        some ((done.filter (fun o => o.1 == name)).map Prod.snd) := by
      rw [h3 name, if_pos hnames]
    refine ⟨?_, ?_, ?_⟩
    · simpa [addExecutable, hmem] using h1
    · intro n
      by_cases hn : n = name
      · subst hn; simp [addExecutable, hmem, hnames]
      · simp [addExecutable, hmem, h2 n, hn]
    · intro n
      by_cases hn : n = name
      · subst hn
        have hL : alistGet (addExecutable st n full).context_menus n =
            some ((done.filter (fun o => o.1 == n)).map Prod.snd ++ [full]) := by
          simp [addExecutable, hmem, alistGet_alistSet_self, hmenu]
        rw [hL, if_pos (by simp [hnames]), filter_fst_append_self]
        simp
      · have hL : alistGet (addExecutable st name full).context_menus n =
            alistGet st.context_menus n := by
          simp only [addExecutable, if_pos hmem]
          exact alistGet_alistSet_ne _ name n _ hn
        rw [hL, h3 n, filter_fst_append_ne _ _ _ _ hn]
        by_cases hnd : n ∈ done.map Prod.fst <;> simp [hnd, hn]
  · have hnames : name ∉ done.map Prod.fst := fun hc => hmem ((h2 name).2 hc)
    refine ⟨?_, ?_, ?_⟩
    · simp [addExecutable, hmem, List.nodup_append, h1, List.disjoint_singleton]
    · intro n
      by_cases hn : n = name
      · subst hn; simp [addExecutable, hmem]
      · simp [addExecutable, hmem, h2 n, hn]
    · intro n
      by_cases hn : n = name
      · subst hn
        have hL : alistGet (addExecutable st n full).context_menus n =
            some [full] := by
          simp [addExecutable, hmem, alistGet_alistSet_self]
        rw [hL, if_pos (by simp), filter_fst_append_self,
          filter_fst_eq_nil_of_notMem _ _ hnames]
        simp
      · have hL : alistGet (addExecutable st name full).context_menus n =
            alistGet st.context_menus n := by
          simp only [addExecutable, if_neg hmem]
          exact alistGet_alistSet_ne _ name n _ hn
        rw [hL, h3 n, filter_fst_append_ne _ _ _ _ hn]
        by_cases hnd : n ∈ done.map Prod.fst <;> simp [hnd, hn]

theorem execInvariant_foldl (occ : List (String × String)) :
    ∀ (st : ModState) (done : List (String × String)), execInvariant st done →
      execInvariant (occ.foldl (fun st o => addExecutable st o.1 o.2) st) (done ++ occ) := by
  induction occ with
  | nil => intro st done h; simpa using h
  | cons o os ih =>
      intro st done h
      have step := execInvariant_addExecutable st done o.1 o.2 h
      have := ih (addExecutable st o.1 o.2) (done ++ [(o.1, o.2)]) step
      simpa [List.append_assoc] using this

theorem execInvariant_initial : execInvariant initialState [] := by
  refine ⟨List.nodup_nil, ?_, ?_⟩ <;> intro n <;> simp [initialState, alistGet]

/-- The state of a `get_executables` run from the fresh state satisfies the
invariant with respect to all qualifying occurrences. -/
theorem get_executables_inv (plat : Platform) (fs : FS) (paths : List String) :
    execInvariant (get_executables plat fs initialState (some paths))
      (occurrences plat fs paths) := by
  rw [get_executables_eq]
  simpa using execInvariant_foldl (occurrences plat fs paths) initialState []
    execInvariant_initial

/-! Lemmas about first-occurrence deduplication. -/

theorem dedupFirstAux_cons (x : String) (xs seen : List String) :
    dedupFirstAux (x :: xs) seen =
      if x ∈ seen then dedupFirstAux xs seen
      else x :: dedupFirstAux xs (x :: seen) := rfl

theorem dedupFirstAux_append (l : List String) (c : String) :
    ∀ seen, dedupFirstAux (l ++ [c]) seen =
      dedupFirstAux l seen ++ (if c ∈ seen ∨ c ∈ l then [] else [c]) := by
  induction l with
  | nil => intro seen; by_cases h : c ∈ seen <;> simp [dedupFirst, dedupFirstAux_cons, dedupFirstAux, h]
  | cons x xs ih =>
      intro seen
      by_cases hx : x ∈ seen
      · rw [List.cons_append, dedupFirstAux_cons, if_pos hx, ih seen,
          dedupFirstAux_cons, if_pos hx]
        have hcond : (c ∈ seen ∨ c ∈ xs) ↔ (c ∈ seen ∨ c ∈ x :: xs) := by
          simp only [List.mem_cons]
          constructor
          · tauto
          · rintro (h | h | h)
            · tauto
            · subst h; tauto
            · tauto
        rw [if_congr hcond rfl rfl]
      · rw [List.cons_append, dedupFirstAux_cons, if_neg hx, ih (x :: seen),
          dedupFirstAux_cons, if_neg hx]
        have hcond : (c ∈ x :: seen ∨ c ∈ xs) ↔ (c ∈ seen ∨ c ∈ x :: xs) := by
          simp only [List.mem_cons]; tauto
        rw [if_congr hcond rfl rfl]
        simp

theorem dedupFirst_append (l : List String) (c : String) :
    dedupFirst (l ++ [c]) = dedupFirst l ++ (if c ∈ l then [] else [c]) := by
  unfold dedupFirst
  rw [dedupFirstAux_append]
  simp

theorem mem_dedupFirstAux (c : String) (l : List String) :
    ∀ seen, c ∈ dedupFirstAux l seen ↔ c ∈ l ∧ c ∉ seen := by
  induction l with
  | nil => intro seen; simp [dedupFirstAux]
  | cons x xs ih =>
      intro seen
      by_cases hx : x ∈ seen
      · rw [dedupFirstAux_cons, if_pos hx, ih seen]
        by_cases hc : c = x
        · subst hc; simp [hx]
        · simp [List.mem_cons, hc]
      · rw [dedupFirstAux_cons, if_neg hx]
        by_cases hc : c = x
        · subst hc; simp [hx]
        · simp only [List.mem_cons, hc, false_or, ih (x :: seen)]

theorem mem_dedupFirst (c : String) (l : List String) :
    c ∈ dedupFirst l ↔ c ∈ l := by
  rw [dedupFirst, mem_dedupFirstAux]; simp

/-! The desktop-scan invariant is preserved by each parsed entry. -/

theorem desktopInvariant_addDesktopEntry (st : ModState)
    (done : List (String × String)) (app command : String)
    (h : desktopInvariant st done) :
    desktopInvariant (addDesktopEntry st app command) (done ++ [(app, command)]) := by
  obtain ⟨h1, h2, h3⟩ := h
  by_cases hmem : app ∈ st.executables
  · have hnames : app ∈ done.map Prod.fst := (h2 app).1 hmem
    have hmenu : alistGet st.context_menus app =
        some (dedupFirst ((done.filter (fun o => o.1 == app)).map Prod.snd)) := by
      rw [h3 app, if_pos hnames]
    set cmds := (done.filter (fun o => o.1 == app)).map Prod.snd with hcmds
    by_cases hdup : command ∈ (alistGet st.context_menus app).getD []
    · -- duplicate command: the state is unchanged
      have hdup' : command ∈ cmds := by
        rw [hmenu] at hdup
        exact (mem_dedupFirst _ _).1 (by simpa using hdup)
      have hst : addDesktopEntry st app command = st := by
        simp [addDesktopEntry, hmem, hdup]
      rw [hst]
      refine ⟨h1, ?_, ?_⟩
      · intro n
        by_cases hn : n = app
        · subst hn; simp [hmem, hnames]
        · simp [h2 n, hn]
      · intro n
        by_cases hn : n = app
        · subst hn
          rw [h3 n, if_pos hnames, if_pos (by simp [hnames]),
            filter_fst_append_self]
          simp only [List.map_append, List.map_cons, List.map_nil]
          rw [dedupFirst_append, if_pos hdup']
          simp
        · rw [h3 n, filter_fst_append_ne _ _ _ _ hn]
          by_cases hnd : n ∈ done.map Prod.fst <;> simp [hnd, hn]
    · -- new command for a known name: appended to the menu
      have hdup' : command ∉ cmds := by
        rw [hmenu] at hdup
        intro hc
        exact hdup (by simpa using (mem_dedupFirst _ _).2 hc)
      refine ⟨?_, ?_, ?_⟩
      · simpa [addDesktopEntry, hmem, hdup] using h1
      · intro n
        by_cases hn : n = app
        · subst hn; simp [addDesktopEntry, hmem, hdup, hnames]
        · simp [addDesktopEntry, hmem, hdup, h2 n, hn]
      · intro n
        by_cases hn : n = app
        · subst hn
          have hst : addDesktopEntry st n command =
              { st with
                info_panels := alistSet st.info_panels n
                  ((alistGet st.info_panels n).getD "" ++ "<br/>" ++
                    htmlEscape (makeCommandInfo command)),
                context_menus := alistSet st.context_menus n
                  ((alistGet st.context_menus n).getD [] ++ [command]) } := by
            simp [addDesktopEntry, hmem, hdup]
          have hL : alistGet (addDesktopEntry st n command).context_menus n =
              some (dedupFirst cmds ++ [command]) := by
            rw [hst]
            simp [alistGet_alistSet_self, hmenu]
          rw [hL, if_pos (by simp [hnames]), filter_fst_append_self]
          simp only [List.map_append, List.map_cons, List.map_nil]
          rw [dedupFirst_append, if_neg hdup']
        · have hL : alistGet (addDesktopEntry st app command).context_menus n =
              alistGet st.context_menus n := by
            simp only [addDesktopEntry, if_pos hmem, if_neg hdup]
            exact alistGet_alistSet_ne _ app n _ hn
          rw [hL, h3 n, filter_fst_append_ne _ _ _ _ hn]
          by_cases hnd : n ∈ done.map Prod.fst <;> simp [hnd, hn]
  · have hnames : app ∉ done.map Prod.fst := fun hc => hmem ((h2 app).2 hc)
    refine ⟨?_, ?_, ?_⟩
    · simp [addDesktopEntry, hmem, List.nodup_append, h1, List.disjoint_singleton]
    · intro n
      by_cases hn : n = app
      · subst hn; simp [addDesktopEntry, hmem]
      · simp [addDesktopEntry, hmem, h2 n, hn]
    · intro n
      by_cases hn : n = app
      · subst hn
        have hL : alistGet (addDesktopEntry st n command).context_menus n =
            some [command] := by
          simp [addDesktopEntry, hmem, alistGet_alistSet_self]
        rw [hL, if_pos (by simp), filter_fst_append_self,
          filter_fst_eq_nil_of_notMem _ _ hnames]
        simp [dedupFirst, dedupFirstAux]
      · have hL : alistGet (addDesktopEntry st app command).context_menus n =
            alistGet st.context_menus n := by
          simp only [addDesktopEntry, if_neg hmem]
          exact alistGet_alistSet_ne _ app n _ hn
        rw [hL, h3 n, filter_fst_append_ne _ _ _ _ hn]
        by_cases hnd : n ∈ done.map Prod.fst <;> simp [hnd, hn]

theorem desktopInvariant_foldl (pairs : List (String × String)) :
    ∀ (st : ModState) (done : List (String × String)), desktopInvariant st done →
      desktopInvariant
        (pairs.foldl (fun st pr => addDesktopEntry st pr.1 pr.2) st) (done ++ pairs) := by
  induction pairs with
  | nil => intro st done h; simpa using h
  | cons pr prs ih =>
      intro st done h
      have step := desktopInvariant_addDesktopEntry st done pr.1 pr.2 h
      have := ih (addDesktopEntry st pr.1 pr.2) (done ++ [(pr.1, pr.2)]) step
      simpa [List.append_assoc] using this

theorem desktopInvariant_initial : desktopInvariant initialState [] := by
  refine ⟨List.nodup_nil, ?_, ?_⟩ <;> intro n <;> simp [initialState, alistGet]

theorem foldl_addDesktopFile_eq (files : List IniFile) :
    ∀ st : ModState,
      files.foldl addDesktopFile st =
        (files.filterMap parse_desktop_entry).foldl
          (fun st pr => addDesktopEntry st pr.1 pr.2) st := by
  induction files with
  | nil => intro st; rfl
  | cons f fls ih =>
      intro st
      rw [List.foldl_cons, List.filterMap_cons]
      cases h : parse_desktop_entry f with
      | none =>
          have hf : addDesktopFile st f = st := by simp [addDesktopFile, h]
          rw [hf, ih]
      | some pr =>
          obtain ⟨app, command⟩ := pr
          have hf : addDesktopFile st f = addDesktopEntry st app command := by
            simp [addDesktopFile, h]
          rw [hf, List.foldl_cons, ih]

theorem processDesktopDir_eq (fs : FS) (st : ModState) (dir : String) :
    processDesktopDir fs st dir =
      (dirDesktopPairs fs dir).foldl (fun st pr => addDesktopEntry st pr.1 pr.2) st := by
  have hlet : processDesktopDir fs st dir =
      match fs.desktopListing (osJoin (fs.expand dir) "applications") with
      | none => st
      | some files => files.foldl addDesktopFile st := rfl
  rw [hlet]
  unfold dirDesktopPairs
  cases fs.desktopListing (osJoin (fs.expand dir) "applications") with
  | none => rfl
  | some files => exact foldl_addDesktopFile_eq files st

theorem foldl_processDesktopDir_eq (fs : FS) (dirs : List String) :
    ∀ st : ModState,
      dirs.foldl (processDesktopDir fs) st =
        (desktopPairs fs dirs).foldl (fun st pr => addDesktopEntry st pr.1 pr.2) st := by
  induction dirs with
  | nil => intro st; rfl
  | cons d ds ih =>
      intro st
      rw [List.foldl_cons, ih (processDesktopDir fs st d), processDesktopDir_eq]
      have h3 : desktopPairs fs (d :: ds) =
          dirDesktopPairs fs d ++ desktopPairs fs ds := by
        simp [desktopPairs]
      rw [h3, List.foldl_append]

/-- The state of a Linux desktop scan from the fresh state satisfies the
invariant with respect to all parsed (name, command) pairs. -/
theorem desktop_discover_inv (fs : FS) (dirs : List String) :
    desktopInvariant (dirs.foldl (processDesktopDir fs) initialState)
      (desktopPairs fs dirs) := by
  rw [foldl_processDesktopDir_eq]
  simpa using desktopInvariant_foldl (desktopPairs fs dirs) initialState []
    desktopInvariant_initial

/-! Sorting lemmas: `pyStrLe` agrees with the `≤` of `String` and the
insertion sort produces ascending lists. -/

theorem pyStrLt_iff : ∀ a b : List Char, pyStrLt a b = true ↔ List.Lex (· < ·) a b := by
  intro a
  induction a with
  | nil =>
      intro b
      cases b with
      | nil =>
          simp only [pyStrLt]
          constructor
          · intro h; exact absurd h (by simp)
          · intro h; cases h
      | cons c cs =>
          simp only [pyStrLt]
          exact ⟨fun _ => List.Lex.nil, fun _ => trivial⟩
  | cons x xs ih =>
      intro b
      cases b with
      | nil =>
          simp only [pyStrLt]
          constructor
          · intro h; exact absurd h (by simp)
          · intro h; cases h
      | cons y ys =>
          simp only [pyStrLt]
          by_cases hxy : x < y
          · simp only [if_pos hxy]
            exact ⟨fun _ => List.Lex.rel hxy, fun _ => trivial⟩
          · simp only [if_neg hxy]
            by_cases hyx : y < x
            · simp only [if_pos hyx]
              constructor
              · intro h; exact absurd h (by simp)
              · intro h
                cases h with
                | cons h => exact absurd hyx (lt_irrefl x)
                | rel h => exact absurd h hxy
            · simp only [if_neg hyx, ih ys]
              have heq : x = y := le_antisymm (not_lt.mp hyx) (not_lt.mp hxy)
              subst heq
              constructor
              · intro h; exact List.Lex.cons h
              · intro h
                cases h with
                | cons h => exact h
                | rel h => exact absurd h hxy

theorem pyStrLe_iff (a b : String) : pyStrLe a b = true ↔ a ≤ b := by
  show (!pyStrLt b.data a.data) = true ↔ ¬ b < a
  rw [Bool.not_eq_true', String.lt_iff_toList_lt]
  show pyStrLt b.data a.data = false ↔ ¬ List.Lex (· < ·) b.data a.data
  constructor
  · intro h hba
    have hb : pyStrLt b.data a.data = true := (pyStrLt_iff b.data a.data).2 hba
    rw [hb] at h
    cases h
  · intro h
    by_cases hb : pyStrLt b.data a.data = true
    · exact absurd ((pyStrLt_iff b.data a.data).1 hb) h
    · exact Bool.of_not_eq_true hb

theorem mem_insertSorted (b x : String) (l : List String) :
    b ∈ insertSorted x l ↔ b = x ∨ b ∈ l := by
  induction l with
  | nil => simp [insertSorted]
  | cons y ys ih =>
      by_cases h : pyStrLe x y = true
      · simp [insertSorted, h, List.mem_cons]
      · simp [insertSorted, h, List.mem_cons, ih]
        tauto

theorem sorted_insertSorted (x : String) (l : List String) (h : l.Sorted (· ≤ ·)) :
    (insertSorted x l).Sorted (· ≤ ·) := by
  induction l with
  | nil => simp [insertSorted]
  | cons y ys ih =>
      rw [List.sorted_cons] at h
      obtain ⟨hy, hys⟩ := h
      by_cases hb : pyStrLe x y = true
      · rw [insertSorted, if_pos hb, List.sorted_cons]
        have hxy : x ≤ y := (pyStrLe_iff x y).1 hb
        constructor
        · intro b hb2
          rcases List.mem_cons.mp hb2 with rfl | hbys
          · exact hxy
          · exact le_trans hxy (hy b hbys)
        · exact List.sorted_cons.mpr ⟨hy, hys⟩
      · rw [insertSorted, if_neg hb, List.sorted_cons]
        have hyx : y ≤ x := by
          rcases le_total x y with hxy | hyx
          · exact absurd ((pyStrLe_iff x y).2 hxy) hb
          · exact hyx
        constructor
        · intro b hb2
          rcases (mem_insertSorted b x ys).1 hb2 with rfl | hbys
          · exact hyx
          · exact hy b hbys
        · exact ih hys

theorem sorted_pySort (l : List String) : (pySort l).Sorted (· ≤ ·) := by
  induction l with
  | nil => simp [pySort]
  | cons x xs ih => exact sorted_insertSorted x (pySort xs) ih

theorem ascStrings_of_sorted (l : List String) (h : l.Sorted (· ≤ ·)) :
    ascStrings l = true := by
  induction l with
  | nil => rfl
  | cons x xs ih =>
      cases xs with
      | nil => rfl
      | cons y ys =>
          rw [List.sorted_cons] at h
          have hxy : x ≤ y := h.1 y (by simp)
          have hys := ih h.2
          simp only [ascStrings, hys, Bool.and_true]
          exact (pyStrLe_iff x y).2 hxy

theorem ascStrings_pySort (l : List String) : ascStrings (pySort l) = true :=
  ascStrings_of_sorted _ (sorted_pySort l)

/-! Helper lemmas about the published messages. -/

/-- Whether a message is a critical error (line 46). -/
def isCriticalMsg : Msg → Bool
  | .critical_error _ => true
  | _ => false

theorem moduleGetEntries_ok (plat : Platform) (fs : FS) (up : Bool) (st0 st : ModState)
    (msgs : List Msg) (h : moduleGetEntries plat fs up st0 = .ok (st, msgs)) :
    msgs = set_entries plat up st ∧ ascStrings st.executables = true := by
  unfold moduleGetEntries at h
  cases hd : discover plat fs up st0 with
  | error e => rw [hd] at h; exact absurd h (by simp)
  | ok st1 =>
      rw [hd] at h
      simp only [Except.ok.injEq, Prod.mk.injEq] at h
      obtain ⟨hst, hmsgs⟩ := h
      subst hst
      exact ⟨hmsgs.symm, ascStrings_pySort _⟩

theorem set_entries_countP_critical (plat : Platform) (up : Bool) (st : ModState) :
    (set_entries plat up st).countP (fun m => isCriticalMsg m) = 0 := by
  unfold set_entries
  by_cases h : (!up && decide (plat = Platform.Darwin)) = true <;>
    simp [h, isCriticalMsg, List.countP_append, List.countP_cons]

theorem set_entries_has_lists (plat : Platform) (up : Bool) (st : ModState) :
    (∃ l, Msg.replace_entry_list l ∈ set_entries plat up st) ∧
    (∃ l, Msg.replace_command_list l ∈ set_entries plat up st) := by
  unfold set_entries
  by_cases h : (!up && decide (plat = Platform.Darwin)) = true
  · exact ⟨⟨st.executables, by simp [h]⟩, ⟨[], by simp [h]⟩⟩
  · exact ⟨⟨[], by simp [h]⟩, ⟨st.executables, by simp [h]⟩⟩

theorem set_entries_all_sorted (plat : Platform) (up : Bool) (st : ModState)
    (h : ascStrings st.executables = true) :
    (set_entries plat up st).all msgSorted = true := by
  unfold set_entries
  by_cases hb : (!up && decide (plat = Platform.Darwin)) = true <;>
    simp [hb, msgSorted, h, ascStrings]

/-! Concrete filesystems and settings used as witnesses. -/

/-- A filesystem with nothing readable. -/
def emptyFS : FS :=
  { pathEnv := [], expand := id, listing := fun _ => none, applications := none,
    xdgDataDirs := none, desktopListing := fun _ => none, wmiPaths := [] }

/-- Two directories: `d1` with executables `a` and `b`, `d2` with `a` again
(a name collision). -/
def fsC1 : FS :=
  { emptyFS with
    listing := fun p =>
      if p = "d1" then some [⟨"a", true, true⟩, ⟨"b", true, true⟩]
      else if p = "d2" then some [⟨"a", true, true⟩]
      else none }

/-! ## The claims -/

/-- C1: over a set of directories, PATH-based discovery produces exactly
N − M entries, where N is the number of (distinct) qualifying executable
occurrences and M the number of name collisions (occurrences whose
basename already appeared), and every colliding name's context-menu list
has length at least 2. -/
theorem claim_C1 (plat : Platform) (fs : FS) (paths : List String)
    (_hdistinct : ((occurrences plat fs paths).map Prod.snd).Nodup) :
    (get_executables plat fs initialState (some paths)).executables.length =
        (occurrences plat fs paths).length -
          ((occurrences plat fs paths).length -
            ((occurrences plat fs paths).map Prod.fst).dedup.length) ∧
    (∀ name, 2 ≤ ((occurrences plat fs paths).map Prod.fst).count name →
      ∃ menu,
        alistGet (get_executables plat fs initialState (some paths)).context_menus name =
            some menu ∧
          2 ≤ menu.length) := by
  obtain ⟨h1, h2, h3⟩ := get_executables_inv plat fs paths
  constructor
  · have hperm :
        List.Perm (get_executables plat fs initialState (some paths)).executables
          ((occurrences plat fs paths).map Prod.fst).dedup :=
      (List.perm_ext_iff_of_nodup h1 (List.nodup_dedup _)).mpr
        (fun a => by rw [h2 a, List.mem_dedup])
    rw [hperm.length_eq, Nat.sub_sub_self]
    calc ((occurrences plat fs paths).map Prod.fst).dedup.length
        ≤ ((occurrences plat fs paths).map Prod.fst).length :=
          (List.dedup_sublist _).length_le
      _ = (occurrences plat fs paths).length := List.length_map _ _
  · intro name hcount
    have hpos : 0 < ((occurrences plat fs paths).map Prod.fst).count name :=
      lt_of_lt_of_le (by norm_num) hcount
    have hmem : name ∈ (occurrences plat fs paths).map Prod.fst :=
      List.count_pos_iff.mp hpos
    refine ⟨((occurrences plat fs paths).filter (fun o => o.1 == name)).map Prod.snd,
      ?_, ?_⟩
    · rw [h3 name, if_pos hmem]
    · rw [List.length_map, ← count_fst_eq_filter_length]
      exact hcount

/-- C1 witness: `d1` holds `a` and `b`, `d2` holds `a`: three distinct
executables, one collision, two entries, and the colliding name `a` has a
two-element context menu. -/
theorem claim_C1_witness :
    ((occurrences .Linux fsC1 ["d1", "d2"]).map Prod.snd).Nodup ∧
    ((get_executables .Linux fsC1 initialState (some ["d1", "d2"])).executables.length =
        (occurrences .Linux fsC1 ["d1", "d2"]).length -
          ((occurrences .Linux fsC1 ["d1", "d2"]).length -
            ((occurrences .Linux fsC1 ["d1", "d2"]).map Prod.fst).dedup.length) ∧
      (∀ name, 2 ≤ ((occurrences .Linux fsC1 ["d1", "d2"]).map Prod.fst).count name →
        ∃ menu,
          alistGet (get_executables .Linux fsC1 initialState
                (some ["d1", "d2"])).context_menus name =
              some menu ∧
            2 ≤ menu.length)) :=
  ⟨by decide, claim_C1 .Linux fsC1 ["d1", "d2"] (by decide)⟩

/-- `/Applications` holding `Foo.app` and `Fooa.app`: `rstrip('.app')`
maps both to `Foo`. -/
def fsC2 : FS := { emptyFS with applications := some ["Foo.app", "Fooa.app"] }

/-- C2 counterexample: on Darwin without `use_path`, discovery appends
`rstrip('.app')` of each bundle name with no membership check, so the two
distinct bundles `Foo.app` and `Fooa.app` both become the display name
`Foo` and the in-memory entry list contains a duplicate, refuting the
uniqueness invariant for that discovery operation. -/
theorem claim_C2_counterexample :
    (moduleGetEntries .Darwin fsC2 false initialState).map (fun r => r.1.executables) =
        .ok ["Foo", "Foo"] ∧
    ¬ (["Foo", "Foo"] : List String).Nodup := by
  constructor
  · rfl
  · decide

/-- C2 amended: after a PATH-based discovery run the display names are
unique and each name's context menu is exactly the full paths of its
occurrences in first-discovery order; after a Linux desktop-entry run the
names are unique and each name's context menu is exactly the distinct
commands found under it in first-discovery order. (macOS `/Applications`
discovery is excluded: it appends stripped bundle names without a
membership check — see the counterexample — and records no invocation
targets.) -/
theorem claim_C2_amended :
    (∀ (plat : Platform) (fs : FS) (paths : List String),
      (get_executables plat fs initialState (some paths)).executables.Nodup ∧
      ∀ n, alistGet (get_executables plat fs initialState (some paths)).context_menus n =
          (if n ∈ (occurrences plat fs paths).map Prod.fst then
            some (((occurrences plat fs paths).filter (fun o => o.1 == n)).map Prod.snd)
          else none)) ∧
    (∀ (fs : FS) (dirs : List String),
      (dirs.foldl (processDesktopDir fs) initialState).executables.Nodup ∧
      ∀ n, alistGet (dirs.foldl (processDesktopDir fs) initialState).context_menus n =
          (if n ∈ (desktopPairs fs dirs).map Prod.fst then
            some (dedupFirst
              (((desktopPairs fs dirs).filter (fun o => o.1 == n)).map Prod.snd))
          else none)) := by
  constructor
  · intro plat fs paths
    obtain ⟨h1, _, h3⟩ := get_executables_inv plat fs paths
    exact ⟨h1, h3⟩
  · intro fs dirs
    obtain ⟨h1, _, h3⟩ := desktop_discover_inv fs dirs
    exact ⟨h1, h3⟩

instance exceptDecEq {ε α : Type} [DecidableEq ε] [DecidableEq α] :
    DecidableEq (Except ε α) := fun x y =>
  match x, y with
  | .error a, .error b =>
      if h : a = b then .isTrue (by rw [h])
      else .isFalse (fun hc => h (by cases hc; rfl))
  | .ok a, .ok b =>
      if h : a = b then .isTrue (by rw [h])
      else .isFalse (fun hc => h (by cases hc; rfl))
  | .error _, .ok _ => .isFalse (fun hc => by cases hc)
  | .ok _, .error _ => .isFalse (fun hc => by cases hc)

/-- `PATH = [d]` where `d` holds one executable `a`. -/
def fsC3a : FS :=
  { emptyFS with
    pathEnv := ["d"]
    listing := fun p => if p = "d" then some [⟨"a", true, true⟩] else none }

/-- The same machine after the filesystem changed: `d` now holds `b`. -/
def fsC3b : FS :=
  { emptyFS with
    pathEnv := ["d"]
    listing := fun p => if p = "d" then some [⟨"b", true, true⟩] else none }

/-- Settings with `use_path = "true"` and a supported API version. -/
def settingsTrue : Settings := ⟨some "true", [0, 8, 0]⟩

/-- Settings with `use_path` absent and a supported API version. -/
def settingsFalse : Settings := ⟨none, [0, 8, 0]⟩

/-- The state `init` builds from `fsC3a`. -/
def stC3 : ModState := ⟨["a"], [("a", "<b>d/a</b>")], [("a", ["d/a"])]⟩

/-- C3 counterexample: after `init` against a filesystem whose `PATH`
directory holds `a`, an empty selection against the changed filesystem
(`d` now holds `b`) re-sends the stored entries unchanged; the messages
differ from what re-running `_get_entries` on the current filesystem would
emit, so no rescan happened. -/
theorem claim_C3_counterexample :
    (moduleInit .Linux fsC3a settingsTrue).2 = .ok stC3 ∧
    selection_made .Linux fsC3b true stC3 [] = .ok (none, set_entries .Linux true stC3) ∧
    (moduleGetEntries .Linux fsC3b true stC3).map Prod.snd ≠
      .ok (set_entries .Linux true stC3) := by
  refine ⟨by rfl, rfl, by decide⟩

/-- C3 amended: an empty selection re-sends the entry/command lists and
metadata built from the current in-memory state via `_set_entries`, and the
result is independent of the ambient filesystem (no rescan occurs). -/
theorem claim_C3_amended (plat : Platform) (use_path : Bool) (fs fsx : FS)
    (st : ModState) :
    selection_made plat fs use_path st [] = .ok (none, set_entries plat use_path st) ∧
    selection_made plat fs use_path st [] = selection_made plat fsx use_path st [] :=
  ⟨rfl, rfl⟩

/-- A desktop entry `Name=app`, `Exec=app.bin %f %u`. -/
def iniC4 : IniFile := [("Desktop Entry", [("Name", "app"), ("Exec", "app.bin %f %u")])]

/-- A desktop entry `Name=pct`, `Exec=run %%f` (escaped placeholder). -/
def iniC4b : IniFile := [("Desktop Entry", [("Name", "pct"), ("Exec", "run %%f")])]

/-- A Linux machine with the two desktop entries above. -/
def fsC4 : FS :=
  { emptyFS with
    xdgDataDirs := some ["/usr/share"],
    desktopListing := fun d =>
      if d = "/usr/share/applications" then some [iniC4, iniC4b] else none }

/-- The state `init` builds from `fsC4` (Linux desktop discovery). -/
def stC4 : ModState :=
  ⟨["app", "pct"],
    [("app", "<b>app.bin &lt;file name&gt; %u</b>"), ("pct", "<b>run %%f</b>")],
    [("app", ["app.bin %f %u"]), ("pct", ["run %%f"])]⟩

/-- C4 counterexample: for `Exec=app.bin %f %u`, the display description
keeps the literal `%u` — the substitution loop breaks after the first
pattern (`%f`) replaces, so the description does NOT have both placeholders
replaced by their informational text. -/
theorem claim_C4_counterexample :
    (moduleInit .Linux fsC4 settingsFalse).2 = .ok stC4 ∧
    alistGet stC4.info_panels "app" = some "<b>app.bin &lt;file name&gt; %u</b>" ∧
    alistGet stC4.info_panels "app" ≠ some "<b>app.bin &lt;file name&gt; &lt;URL&gt;</b>" := by
  refine ⟨by rfl, by rfl, by decide⟩

/-- C4 amended: for `Exec=app.bin %f %u` the display description replaces
only the first matching placeholder pattern (`%f`, tried before `%u`, one
occurrence); at launch a supplied argument is substituted for every
unescaped `%f`/`%u` token; and a literal `%%f` is never substituted, in the
description or at launch. -/
theorem claim_C4_amended :
    makeCommandInfo "app.bin %f %u" = "app.bin <file name> %u" ∧
    alistGet stC4.info_panels "app" =
      some ("<b>" ++ htmlEscape "app.bin <file name> %u" ++ "</b>") ∧
    selection_made .Linux fsC4 false stC4 [⟨"app", none, "file1"⟩] =
      .ok (some (.argv ["app.bin", "file1", "file1"]), [Msg.close]) ∧
    makeCommandInfo "run %%f" = "run %%f" ∧
    launchSub "x" "run %%f" = "run %%f" ∧
    selection_made .Linux fsC4 false stC4 [⟨"pct", none, "x"⟩] =
      .ok (some (.argv ["run", "%%f"]), [Msg.close]) :=
  ⟨rfl, rfl, rfl, rfl, rfl, rfl⟩

/-- With `use_path` true, discovery on each named platform is exactly a
`PATH` scan (lines 93-94, 102-103, 138-139). -/
theorem discover_use_path (plat : Platform) (fs : FS) (st : ModState)
    (h : plat ≠ .Other) :
    discover plat fs true st = .ok (get_executables plat fs st none) := by
  cases plat with
  | Darwin => rfl
  | Linux => rfl
  | Windows => rfl
  | Other => exact absurd rfl h

/-- A `PATH` scan reads only `PATH`, `expanduser` and directory listings. -/
theorem get_executables_congr (plat : Platform) (fs fsx : FS) (st : ModState)
    (hp : fs.pathEnv = fsx.pathEnv) (he : fs.expand = fsx.expand)
    (hl : fs.listing = fsx.listing) :
    get_executables plat fs st none = get_executables plat fsx st none := by
  show fs.pathEnv.foldl (processDir plat fs) st = fsx.pathEnv.foldl (processDir plat fsx) st
  have hpd : processDir plat fs = processDir plat fsx := by
    funext st1 path
    unfold processDir
    rw [he, hl]
  rw [hp, hpd]

/-- C5: on Darwin, Linux and Windows alike, a settings value `use_path`
that `strtobool` maps to true makes `init` scan only `PATH`: the run is
unchanged by any change to the platform-native sources (`/Applications`,
`XDG` desktop files, WMI install locations), its state is exactly the
sorted `PATH` scan result, and an absent `use_path` defaults to false. -/
theorem claim_C5 (plat : Platform) (fs fsx : FS) (s : Settings) (v : String)
    (hplat : plat ≠ .Other) (hv : s.use_path = some v) (ht : strtobool v = some true)
    (hp : fs.pathEnv = fsx.pathEnv) (he : fs.expand = fsx.expand)
    (hl : fs.listing = fsx.listing) :
    moduleInit plat fs s = moduleInit plat fsx s ∧
    (moduleInit plat fs s).2 =
      .ok { get_executables plat fs initialState none with
            executables := pySort (get_executables plat fs initialState none).executables } ∧
    (∀ sx : Settings, sx.use_path = none → moduleUsePath sx = some false) := by
  have hup : moduleUsePath s = some true := by
    unfold moduleUsePath
    rw [hv]
    exact ht
  have hA : ∀ g : FS, moduleGetEntries plat g true initialState =
      .ok ({ get_executables plat g initialState none with
              executables := pySort (get_executables plat g initialState none).executables },
            set_entries plat true
              { get_executables plat g initialState none with
                executables := pySort (get_executables plat g initialState none).executables }) := by
    intro g
    unfold moduleGetEntries
    rw [discover_use_path plat g initialState hplat]
  have hgex : get_executables plat fs initialState none =
      get_executables plat fsx initialState none :=
    get_executables_congr plat fs fsx initialState hp he hl
  refine ⟨?_, ?_, ?_⟩
  · unfold moduleInit
    rw [hup]
    simp only [hA fs, hA fsx, hgex]
  · unfold moduleInit
    rw [hup]
    simp only [hA fs]
  · intro sx hsx
    unfold moduleUsePath
    rw [hsx]

/-- A machine whose native sources are all present and populated. -/
def fsC5a : FS :=
  { pathEnv := ["d"]
    expand := id
    listing := fun p => if p = "d" then some [⟨"a", true, true⟩] else none
    applications := some ["Foo.app"]
    xdgDataDirs := some ["/usr/share"]
    desktopListing := fun d => if d = "/usr/share/applications" then some [iniC4] else none
    wmiPaths := ["w"] }

/-- The same machine with every native source changed or missing. -/
def fsC5b : FS :=
  { pathEnv := ["d"]
    expand := id
    listing := fun p => if p = "d" then some [⟨"a", true, true⟩] else none
    applications := none
    xdgDataDirs := none
    desktopListing := fun _ => none
    wmiPaths := [] }

/-- C5 witness: with `use_path = "true"` on Linux, `init` ignores every
native source and produces the sorted `PATH` scan of directory `d`. -/
theorem claim_C5_witness :
    moduleInit .Linux fsC5a settingsTrue = moduleInit .Linux fsC5b settingsTrue ∧
    (moduleInit .Linux fsC5a settingsTrue).2 =
      .ok { get_executables .Linux fsC5a initialState none with
            executables := pySort (get_executables .Linux fsC5a initialState none).executables } ∧
    (∀ sx : Settings, sx.use_path = none → moduleUsePath sx = some false) := by
  have h := claim_C5 .Linux fsC5a fsC5b settingsTrue "true"
    (by decide) rfl rfl rfl rfl rfl
  exact h

/-- C6 counterexample: the entry `app` (from `Exec=app.bin %f %u`) has
exactly one recorded target; selecting it with no context option and empty
args on Linux spawns `["app.bin"]` — the placeholder tokens of the sole
target are substituted away (replaced by the empty argument string and
dropped by tokenization), so the spawned command is not exactly the sole
recorded target under any reading. -/
theorem claim_C6_counterexample :
    (moduleInit .Linux fsC4 settingsFalse).2 = .ok stC4 ∧
    alistGet stC4.context_menus "app" = some ["app.bin %f %u"] ∧
    selection_made .Linux fsC4 false stC4 [⟨"app", none, ""⟩] =
      .ok (some (.argv ["app.bin"]), [Msg.close]) ∧
    shlexSplit "app.bin %f %u" = some ["app.bin", "%f", "%u"] ∧
    SpawnedCmd.argv ["app.bin"] ≠ .prog "app.bin %f %u" ∧
    SpawnedCmd.argv ["app.bin"] ≠ .argv ["app.bin %f %u"] ∧
    SpawnedCmd.argv ["app.bin"] ≠ .argv ["app.bin", "%f", "%u"] := by
  refine ⟨by rfl, by rfl, by rfl, by rfl, by decide, by decide, by decide⟩

/-- C6 amended: for a single-element selection whose entry has exactly one
recorded target, no context option and empty args, the spawned command is
exactly the sole target when launching through the `PATH`/Windows branch
(`use_path` true on any platform, or platform Windows or other); on Linux
desktop launches the target has its unescaped `%f`/`%F`/`%u`/`%U` tokens
replaced by the empty argument string and is then shell-tokenized — when
tokenization succeeds its token list is spawned, and when it fails
(unmatched quote or trailing escape in the target) the `ValueError`
escapes and nothing is spawned; on macOS app launches the target is
invoked through `open -a`. -/
theorem claim_C6_amended (plat : Platform) (fs : FS) (use_path : Bool)
    (st : ModState) (sel : SelectionItem) (target : String)
    (hmenu : alistGet st.context_menus sel.value = some [target])
    (hctx : sel.context_option = none) (hargs : sel.args = "") :
    selection_made plat fs use_path st [sel] =
      (if !use_path && decide (plat = Platform.Darwin) then
        .ok (some (.argv ["open", "-a", shlexQuote target]), [Msg.close])
      else if !use_path && decide (plat = Platform.Linux) then
        (match shlexSplit (launchSub "" target) with
          | none => .error ()
          | some toks => .ok (some (.argv toks), [Msg.close]))
      else .ok (some (.prog target), [Msg.close])) := by
  simp [selection_made, hmenu, hctx, hargs]

/-- A state holding one entry `a` whose sole target is `t`. -/
def stC6 : ModState := ⟨["a"], [("a", "<b>t</b>")], [("a", ["t"])]⟩

/-- C6 amended witness: on Windows (generic branch) the spawned command is
exactly the sole target `t`. -/
theorem claim_C6_witness :
    alistGet stC6.context_menus "a" = some ["t"] ∧
    selection_made .Windows emptyFS false stC6 [⟨"a", none, ""⟩] =
      .ok (some (.prog "t"), [Msg.close]) := by
  have h := claim_C6_amended .Windows emptyFS false stC6 ⟨"a", none, ""⟩ "t"
    (by rfl) rfl rfl
  exact ⟨by rfl, by simpa using h⟩

/-- C7 counterexample: on Darwin without `use_path`, a failing
`listdir('/Applications')` is not wrapped in a `try`, so `init` raises
instead of skipping the unreadable directory — discovery does not continue
and an error reaches the caller. -/
theorem claim_C7_counterexample :
    emptyFS.applications = none ∧
    (moduleInit .Darwin emptyFS settingsFalse).2 = .error () := by
  exact ⟨rfl, rfl⟩

theorem processDir_skip (plat : Platform) (fs : FS) (st : ModState) (path : String)
    (h : fs.listing (fs.expand path) = none) :
    processDir plat fs st path = st := by
  have hlet : processDir plat fs st path =
      match fs.listing (fs.expand path) with
      | none => st
      | some entries => entries.foldl (processEntry plat (fs.expand path)) st := rfl
  rw [hlet, h]

theorem processDesktopDir_skip (fs : FS) (st : ModState) (dir : String)
    (h : fs.desktopListing (osJoin (fs.expand dir) "applications") = none) :
    processDesktopDir fs st dir = st := by
  have hlet : processDesktopDir fs st dir =
      match fs.desktopListing (osJoin (fs.expand dir) "applications") with
      | none => st
      | some files => files.foldl addDesktopFile st := rfl
  rw [hlet, h]

theorem foldl_filter_of_skip {β : Type} (f : ModState → β → ModState) (p : β → Bool)
    (l : List β) (hid : ∀ st b, p b = false → f st b = st) :
    ∀ st : ModState, l.foldl f st = (l.filter p).foldl f st := by
  induction l with
  | nil => intro st; rfl
  | cons b bs ih =>
      intro st
      cases hb : p b with
      | true => rw [List.foldl_cons, List.filter_cons, if_pos hb, List.foldl_cons, ih]
      | false => rw [List.foldl_cons, List.filter_cons, if_neg (by simp [hb]), hid st b hb, ih]

/-- C7 amended: `PATH`-style scanning (`get_executables`, used on all
platforms and for the Windows WMI locations) and the Linux XDG scan skip a
directory whose listing fails and continue with the remaining directories,
raising nothing; but on Darwin without `use_path` a failing
`listdir('/Applications')` escapes `_get_entries` as an error. -/
theorem claim_C7_amended :
    (∀ (plat : Platform) (fs : FS) (st : ModState) (paths : List String),
      get_executables plat fs st (some paths) =
        get_executables plat fs st
          (some (paths.filter (fun p => (fs.listing (fs.expand p)).isSome)))) ∧
    (∀ (fs : FS) (st : ModState) (dirs : List String),
      dirs.foldl (processDesktopDir fs) st =
        (dirs.filter
            (fun d => (fs.desktopListing (osJoin (fs.expand d) "applications")).isSome)).foldl
          (processDesktopDir fs) st) ∧
    (∀ (fs : FS) (st : ModState), fs.applications = none →
      discover .Darwin fs false st = .error ()) := by
  refine ⟨?_, ?_, ?_⟩
  · intro plat fs st paths
    refine foldl_filter_of_skip (processDir plat fs) _ paths ?_ st
    intro st1 b hb
    refine processDir_skip plat fs st1 b ?_
    cases ho : fs.listing (fs.expand b) with
    | none => rfl
    | some xs => rw [ho] at hb; simp at hb
  · intro fs st dirs
    refine foldl_filter_of_skip (processDesktopDir fs) _ dirs ?_ st
    intro st1 b hb
    refine processDesktopDir_skip fs st1 b ?_
    cases ho : fs.desktopListing (osJoin (fs.expand b) "applications") with
    | none => rfl
    | some xs => rw [ho] at hb; simp at hb
  · intro fs st h
    unfold discover
    rw [h]
    rfl

/-- C7 amended witness: with an unreadable directory `bad` in front, the
`PATH` scan of `[bad, d]` equals the scan of the readable remainder `[d]`,
and the Darwin `/Applications` failure raises. -/
theorem claim_C7_witness :
    (get_executables .Linux fsC3a initialState (some ["bad", "d"]) =
      get_executables .Linux fsC3a initialState
        (some (["bad", "d"].filter
          (fun p => (fsC3a.listing (fsC3a.expand p)).isSome)))) ∧
    (emptyFS.applications = none ∧ discover .Darwin emptyFS false initialState = .error ()) :=
  ⟨claim_C7_amended.1 .Linux fsC3a initialState ["bad", "d"],
    rfl, claim_C7_amended.2.2 emptyFS initialState rfl⟩

/-- C8: during Linux desktop discovery, a desktop file whose parse raises
`KeyError` (missing `Desktop Entry` section or `Name`/`Exec` key) is
skipped: processing the directory's files with it present gives exactly
the state of processing them with it removed, and the remaining files are
still processed (the fold is total, so no error is raised). -/
theorem claim_C8 (st : ModState) (pre post : List IniFile) (f : IniFile)
    (h : parse_desktop_entry f = none) :
    (pre ++ f :: post).foldl addDesktopFile st = (pre ++ post).foldl addDesktopFile st := by
  rw [List.foldl_append, List.foldl_append, List.foldl_cons]
  have hf : addDesktopFile (pre.foldl addDesktopFile st) f = pre.foldl addDesktopFile st := by
    simp [addDesktopFile, h]
  rw [hf]

/-- A desktop file with a `Name` but no `Exec` key. -/
def iniC8 : IniFile := [("Desktop Entry", [("Name", "broken")])]

/-- C8 witness: the file lacking `Exec` fails to parse and contributes
nothing between two well-formed files. -/
theorem claim_C8_witness :
    parse_desktop_entry iniC8 = none ∧
    ([iniC4] ++ iniC8 :: [iniC4b]).foldl addDesktopFile initialState =
      ([iniC4] ++ [iniC4b]).foldl addDesktopFile initialState :=
  ⟨by rfl, claim_C8 initialState [iniC4] [iniC4b] iniC8 (by rfl)⟩

/-- C9: provided `init` reaches the version check (the `use_path` value
parses) and discovery succeeds, the queue holds exactly one critical-error
message when `_api_version < [0, 8, 0]` and none otherwise; in both cases
discovery still runs: the queue is the critical-error prefix followed by
the discovery messages, which include a `replace_entry_list` and a
`replace_command_list` message. -/
theorem claim_C9 (plat : Platform) (fs : FS) (s : Settings) (up : Bool)
    (st : ModState) (msgs : List Msg)
    (hup : moduleUsePath s = some up)
    (hok : moduleGetEntries plat fs up initialState = .ok (st, msgs)) :
    ((moduleInit plat fs s).1.countP (fun m => isCriticalMsg m) =
      if pyListLt s.api_version [0, 8, 0] then 1 else 0) ∧
    (moduleInit plat fs s).1 =
      (if pyListLt s.api_version [0, 8, 0] then
        [Msg.critical_error "API version is not supported"]
      else []) ++ msgs ∧
    (∃ l, Msg.replace_entry_list l ∈ (moduleInit plat fs s).1) ∧
    (∃ l, Msg.replace_command_list l ∈ (moduleInit plat fs s).1) := by
  have hinit : moduleInit plat fs s =
      ((if pyListLt s.api_version [0, 8, 0] then
          [Msg.critical_error "API version is not supported"]
        else []) ++ msgs, .ok st) := by
    unfold moduleInit
    rw [hup]
    simp only [hok]
  obtain ⟨hmsgs, -⟩ := moduleGetEntries_ok plat fs up initialState st msgs hok
  refine ⟨?_, ?_, ?_, ?_⟩
  · rw [hinit]
    by_cases hlt : pyListLt s.api_version [0, 8, 0] = true
    · simp only [hinit, hlt, if_pos]
      rw [List.countP_append, hmsgs, set_entries_countP_critical]
      simp [isCriticalMsg, List.countP_cons]
    · simp only [Bool.not_eq_true] at hlt
      simp only [hlt, Bool.false_eq_true, if_false, List.nil_append]
      rw [hmsgs, set_entries_countP_critical]
  · rw [hinit]
  · obtain ⟨l, hl⟩ := (set_entries_has_lists plat up st).1
    exact ⟨l, by rw [hinit]; exact List.mem_append_right _ (hmsgs ▸ hl)⟩
  · obtain ⟨l, hl⟩ := (set_entries_has_lists plat up st).2
    exact ⟨l, by rw [hinit]; exact List.mem_append_right _ (hmsgs ▸ hl)⟩

/-- Settings with `use_path = "true"` and an unsupported API version. -/
def settingsOld : Settings := ⟨some "true", [0, 7, 0]⟩

/-- C9 witness: a concrete run with version `[0, 7, 0]` (one critical
error, discovery messages still emitted) via the theorem. -/
theorem claim_C9_witness :
    ((moduleInit .Linux fsC3a settingsOld).1.countP (fun m => isCriticalMsg m) =
      if pyListLt settingsOld.api_version [0, 8, 0] then 1 else 0) ∧
    (moduleInit .Linux fsC3a settingsOld).1 =
      (if pyListLt settingsOld.api_version [0, 8, 0] then
        [Msg.critical_error "API version is not supported"]
      else []) ++ set_entries .Linux true stC3 ∧
    (∃ l, Msg.replace_entry_list l ∈ (moduleInit .Linux fsC3a settingsOld).1) ∧
    (∃ l, Msg.replace_command_list l ∈ (moduleInit .Linux fsC3a settingsOld).1) :=
  claim_C9 .Linux fsC3a settingsOld true stC3 (set_entries .Linux true stC3)
    (by rfl) (by rfl)

theorem sorted_of_ascStrings (l : List String) (h : ascStrings l = true) :
    l.Sorted (· ≤ ·) := by
  induction l with
  | nil => exact List.sorted_nil
  | cons x xs ih =>
      cases xs with
      | nil => exact List.sorted_singleton x
      | cons y ys =>
          simp only [ascStrings, Bool.and_eq_true] at h
          have h1 : x ≤ y := (pyStrLe_iff x y).1 h.1
          have h2 := ih h.2
          rw [List.sorted_cons]
          refine ⟨?_, h2⟩
          intro b hb
          rcases List.mem_cons.mp hb with rfl | hbys
          · exact h1
          · exact le_trans h1 (List.rel_of_sorted_cons h2 b hbys)

/-- A successful single-selection call emits exactly `Action.close`. -/
theorem selection_made_single_msgs (plat : Platform) (fs : FS) (up : Bool)
    (st : ModState) (a : SelectionItem) (out : Option SpawnedCmd × List Msg)
    (h : selection_made plat fs up st [a] = .ok out) : out.2 = [Msg.close] := by
  simp only [selection_made] at h
  repeat' split at h
  all_goals first
    | (injection h with h2; exact (congrArg Prod.snd h2).symm)
    | (injection h)

theorem moduleInit_sorted (plat : Platform) (fs : FS) (s : Settings) :
    (moduleInit plat fs s).1.all msgSorted = true ∧
    (∀ st, (moduleInit plat fs s).2 = .ok st → ascStrings st.executables = true) := by
  cases hup : moduleUsePath s with
  | none =>
      have hini : moduleInit plat fs s = ([], .error ()) := by
        unfold moduleInit; rw [hup]
      rw [hini]
      exact ⟨rfl, fun st h => absurd h (by simp)⟩
  | some up =>
      cases hge : moduleGetEntries plat fs up initialState with
      | error e =>
          have hini : moduleInit plat fs s =
              ((if pyListLt s.api_version [0, 8, 0] then
                  [Msg.critical_error "API version is not supported"]
                else []), .error e) := by
            unfold moduleInit; rw [hup]; simp only [hge]
          rw [hini]
          constructor
          · by_cases hlt : pyListLt s.api_version [0, 8, 0] = true <;>
              simp [hlt, msgSorted]
          · intro st h
            exact absurd h (by simp)
      | ok r =>
          obtain ⟨st0, msgs0⟩ := r
          have hini : moduleInit plat fs s =
              ((if pyListLt s.api_version [0, 8, 0] then
                  [Msg.critical_error "API version is not supported"]
                else []) ++ msgs0, .ok st0) := by
            unfold moduleInit; rw [hup]; simp only [hge]
          obtain ⟨hm, hasc⟩ := moduleGetEntries_ok plat fs up initialState st0 msgs0 hge
          rw [hini]
          constructor
          · rw [List.all_append]
            have h2 : msgs0.all msgSorted = true := by
              rw [hm]; exact set_entries_all_sorted plat up st0 hasc
            rw [h2]
            by_cases hlt : pyListLt s.api_version [0, 8, 0] = true <;>
              simp [hlt, msgSorted]
          · intro st h
            simp only [Except.ok.injEq] at h
            rw [← h]
            exact hasc

theorem selectionMsgs_sorted (plat : Platform) (fs : FS) (up : Bool) (st : ModState)
    (sel : List SelectionItem) (hasc : ascStrings st.executables = true) :
    (selectionMsgs plat fs up st sel).all msgSorted = true := by
  cases sel with
  | nil => exact set_entries_all_sorted plat up st hasc
  | cons a rest =>
      cases rest with
      | nil =>
          unfold selectionMsgs
          cases hsm : selection_made plat fs up st [a] with
          | error e => rfl
          | ok out =>
              obtain ⟨o, msgs⟩ := out
              have hms := selection_made_single_msgs plat fs up st a (o, msgs) hsm
              simp only at hms
              simp [hms, msgSorted]
      | cons b rest2 => rfl

theorem moduleRunMsgs_sorted (plat : Platform) (fs : FS) (s : Settings)
    (sels : List (List SelectionItem)) :
    (moduleRunMsgs plat fs s sels).all msgSorted = true := by
  obtain ⟨h1, h2⟩ := moduleInit_sorted plat fs s
  unfold moduleRunMsgs
  cases hini : moduleInit plat fs s with
  | mk msgs res =>
      rw [hini] at h1 h2
      cases res with
      | error e => exact h1
      | ok st =>
          have hst : ascStrings st.executables = true := h2 st rfl
          show (msgs ++
            (sels.map (selectionMsgs plat fs ((moduleUsePath s).getD false) st)).flatten).all
              msgSorted = true
          rw [List.all_append, h1]
          simp only [Bool.true_and]
          rw [List.all_eq_true]
          intro m hmem
          rw [List.mem_flatten] at hmem
          obtain ⟨inner, hinner, hm⟩ := hmem
          rw [List.mem_map] at hinner
          obtain ⟨sel, hsel, hmap⟩ := hinner
          have hall := selectionMsgs_sorted plat fs ((moduleUsePath s).getD false) st sel hst
          rw [List.all_eq_true] at hall
          exact hall m (hmap ▸ hm)

/-- C10: every entry-list or command-list payload the module sends during a
run (the `init` messages followed by any number of `selection_made` calls)
is sorted ascending in the lexicographic string order, because
`_get_entries` sorts `executables` before every `_set_entries`. -/
theorem claim_C10 (plat : Platform) (fs : FS) (s : Settings)
    (sels : List (List SelectionItem)) (l : List String)
    (h : Msg.replace_entry_list l ∈ moduleRunMsgs plat fs s sels ∨
      Msg.replace_command_list l ∈ moduleRunMsgs plat fs s sels) :
    l.Sorted (· ≤ ·) := by
  have hall := moduleRunMsgs_sorted plat fs s sels
  rw [List.all_eq_true] at hall
  rcases h with h | h
  · exact sorted_of_ascStrings l (by simpa [msgSorted] using hall _ h)
  · exact sorted_of_ascStrings l (by simpa [msgSorted] using hall _ h)

/-- C10 witness: a concrete run (init plus one empty selection) sends the
command list `["a"]`, which is sorted. -/
theorem claim_C10_witness :
    (Msg.replace_entry_list ["a"] ∈ moduleRunMsgs .Linux fsC3a settingsTrue [[]] ∨
      Msg.replace_command_list ["a"] ∈ moduleRunMsgs .Linux fsC3a settingsTrue [[]]) ∧
    (["a"] : List String).Sorted (· ≤ ·) :=
  ⟨Or.inr (by decide),
    claim_C10 .Linux fsC3a settingsTrue [[]] ["a"] (Or.inr (by decide))⟩

end PextLauncher
